import Mathlib

/-!
Verification of the werkzeug excerpt: a shallow embedding of the response
wrapper (`werkzeug/wrappers.py`), the general utilities
(`werkzeug/utils.py`), the exception catalogue (`werkzeug/exceptions.py`)
and the routing engine (`werkzeug/routing.py`), together with theorems
settling the specification claims about them.
-/

set_option autoImplicit false

namespace Werkzeug

/-- Byte strings are modelled as lists of byte values. -/
abbrev Bytes := List Nat

/-- UTF-8 bytes of a string, the encoding used for the default response
charset `'utf-8'`. -/
def strBytes (s : String) : Bytes :=
  s.toUTF8.toList.map (fun b => b.toNat)

/-- One chunk of a response body: either an already encoded byte string or a
text (unicode) string, mirroring the two kinds of items an application may
put into `BaseResponse.response`. -/
inductive Chunk where
  | bytes (data : Bytes)
  | text (s : String)
deriving DecidableEq

/-- Body of a response: a buffered sequence (a Python `list` or `tuple`) or a
streaming iterable, which may or may not expose a `close` method. -/
inductive Body where
  | sequence (chunks : List Chunk)
  | iterable (chunks : List Chunk) (hasClose : Bool)
deriving DecidableEq

/-- Token for a callback registered via `call_on_close`; `iterClose` stands
for the `close` method captured from a consumed iterable in
`make_sequence`. -/
inductive OnCloseCb where
  | iterClose
deriving DecidableEq

/-- Headers are a list of `(name, value)` pairs whose names compare
case-insensitively, modelling `werkzeug.datastructures.Headers` (module not
part of the excerpt; modelled from the spec's data-model section). -/
abbrev Headers := List (String × String)

/-- State of a `BaseResponse` relevant to the verified operations.  The flags
`autocorrect_location_header` and `automatically_set_content_length` are the
class attributes referenced by `get_wsgi_headers`; `onClose` is the
`_on_close` callback list.  A WSGI environ is reduced to the request method,
the only key `get_app_iter` reads. -/
structure BaseResponse where
  response : Body
  statusCode : Nat
  headers : Headers
  directPassthrough : Bool
  autocorrectLocationHeader : Bool := true
  automaticallySetContentLength : Bool := true
  onClose : List OnCloseCb := []
deriving DecidableEq

/-- Encoding of one chunk with the response charset (`_iter_encoded`): text
is encoded, byte chunks pass through unchanged. -/
def encodeChunk : Chunk → Chunk
  | .bytes d => .bytes d
  | .text s => .bytes (strBytes s)

/-- Chunks produced by iterating the body. -/
def bodyChunks : Body → List Chunk
  | .sequence cs => cs
  | .iterable cs _ => cs

/-- Model of the property `BaseResponse.is_sequence`: the response attribute
is a `list` or `tuple`. -/
def is_sequence : Body → Bool
  | .sequence _ => true
  | .iterable _ _ => false

/-- Whether the body exposes a `close` attribute
(`getattr(self.response, 'close', None)`); buffered lists and tuples have
none. -/
def bodyHasClose : Body → Bool
  | .sequence _ => false
  | .iterable _ c => c

/-- Model of `BaseResponse.iter_encoded`. -/
def iter_encoded (r : BaseResponse) : List Chunk :=
  (bodyChunks r.response).map encodeChunk

/-- Model of `BaseResponse.make_sequence`: when the body is not yet a
sequence, replace it by the list of encoded chunks and, when the consumed
iterable had a `close` method, register that method via `call_on_close`. -/
def make_sequence (r : BaseResponse) : BaseResponse :=
  if is_sequence r.response then r
  else
    { r with
        response := .sequence (iter_encoded r),
        onClose := r.onClose ++ (if bodyHasClose r.response then [.iterClose] else []) }

/-- Application iterator returned by `get_app_iter`: either an iterable
wrapped in a `ClosingIterator` that invokes the response's `close()` method
on exhaustion or on close, or the raw `response` object handed through
unwrapped. -/
inductive AppIter where
  | closing (chunks : List Chunk)
  | raw (body : Body)
deriving DecidableEq

/-- Model of `BaseResponse.get_app_iter`. -/
def get_app_iter (r : BaseResponse) (requestMethod : String) : AppIter :=
  if requestMethod = "HEAD" ∨ (100 ≤ r.statusCode ∧ r.statusCode < 200)
      ∨ r.statusCode = 204 ∨ r.statusCode = 304 then
    .closing []
  else if r.directPassthrough then
    .raw r.response
  else
    .closing (iter_encoded r)

/-- An application iterator triggers `BaseResponse.close()` when consumed to
completion or explicitly closed exactly when it is wrapped in the
`ClosingIterator` built with `self.close`. -/
def wrapsResponseClose : AppIter → Bool
  | .closing _ => true
  | .raw _ => false

/-- ASCII lower-casing of one character.  Python `str.lower()` is applied
in the sources only to header names and host names, which are ASCII (host
names having been IDNA-encoded first). -/
def lowerChar (c : Char) : Char :=
  if 65 ≤ c.toNat ∧ c.toNat ≤ 90 then Char.ofNat (c.toNat + 32) else c

/-- Model of Python `str.lower()` on the ASCII strings in scope. -/
def lowerStr (s : String) : String := ⟨s.data.map lowerChar⟩

/-- Case-insensitive header lookup keeping the last matching value — the
value the scanning loop at the top of `get_wsgi_headers` ends up with after
overwriting its local variable at every match. -/
def headersGetLast : Headers → String → Option String
  | [], _ => none
  | (k0, v0) :: rest, k =>
    match headersGetLast rest k with
    | some v => some v
    | none => if lowerStr k0 = lowerStr k then some v0 else none

/-- Model of `Headers.__setitem__` (modelled from the spec's data-structure
section): replace the first case-insensitive match in place, drop any later
duplicates of the name, and append when the name is absent. -/
def headersSet : Headers → String → String → Headers
  | [], k, v => [(k, v)]
  | (k0, v0) :: rest, k, v =>
    if lowerStr k0 = lowerStr k then
      (k, v) :: rest.filter (fun p => lowerStr p.1 ≠ lowerStr k)
    else
      (k0, v0) :: headersSet rest k v

/-- Lower-cased names of the RFC 2616 entity headers. -/
def entityHeaderNames : List String :=
  ["allow", "content-encoding", "content-language", "content-length",
   "content-location", "content-md5", "content-range", "content-type",
   "expires", "last-modified"]

/-- Modelled from the spec: `remove_entity_headers` lives in `werkzeug.http`,
which is absent from the excerpt; per the spec it strips all entity headers —
the content-describing headers not meaningful on a 304 response. -/
def remove_entity_headers (hs : Headers) : Headers :=
  hs.filter (fun p => ¬ entityHeaderNames.contains (lowerStr p.1))

/-- Modelled from the spec and the call `len(to_bytes(x, 'ascii'))`
(`werkzeug._compat.to_bytes` is absent from the excerpt): a byte chunk keeps
its length; a text chunk encodes to one byte per character when every
character is ASCII and raises `UnicodeError` (modelled as `none`)
otherwise. -/
def chunkAsciiLen : Chunk → Option Nat
  | .bytes d => some d.length
  | .text s => if s.data.all (fun c => c.toNat < 128) then some s.data.length else none

/-- Sum of the chunk byte lengths of a body under ASCII-safe encoding;
`none` models the swallowed `UnicodeError`. -/
def bodyAsciiLen (b : Body) : Option Nat :=
  ((bodyChunks b).mapM chunkAsciiLen).map List.sum

/-- Parameters abstracting the URL helpers `iri_to_uri` (with and without
`safe_conversion`) and `url_join` from `werkzeug.urls` and
`get_current_url(environ, root_only=True)` from `werkzeug.wsgi`, all absent
from the excerpt, together with the environ they read.  The claims about
`get_wsgi_headers` hold for every choice of these functions. -/
structure UrlEnv where
  iriToUriSafe : String → String
  iriToUri : String → String
  currentRootUrl : String
  urlJoin : String → String → String

/-- Location and content-location normalization steps of
`get_wsgi_headers`: the location header, when present, is made absolute
(joined onto the root URL of the environ when `autocorrect_location_header`
is on) and written back only when it changed; a content-location header is
rewritten through `iri_to_uri`. -/
def locationHeaders (u : UrlEnv) (r : BaseResponse) : Headers :=
  let headers0 := r.headers
  let headers1 :=
    match headersGetLast headers0 "location" with
    | none => headers0
    | some oldLoc =>
      let loc := u.iriToUriSafe oldLoc
      let loc :=
        if r.autocorrectLocationHeader then
          u.urlJoin (u.iriToUri u.currentRootUrl) loc
        else loc
      if loc ≠ oldLoc then headersSet headers0 "Location" loc else headers0
  match headersGetLast headers0 "content-location" with
  | none => headers1
  | some cl => headersSet headers1 "Content-Location" (u.iriToUri cl)

/-- Model of `BaseResponse.get_wsgi_headers`: copy the headers, scan for the
location / content-location / content-length values, absolutize the location
headers, force `Content-Length` to zero or strip entity headers for the
status codes that require it — the forced zero also updating the local
content-length variable — and finally fill in an automatically computed
`Content-Length` when possible. -/
def get_wsgi_headers (u : UrlEnv) (r : BaseResponse) : Headers :=
  let status := r.statusCode
  let contentLength0 := headersGetLast r.headers "content-length"
  let headers2 := locationHeaders u r
  let headers3 :=
    if (100 ≤ status ∧ status < 200) ∨ status = 204 then
      headersSet headers2 "Content-Length" "0"
    else if status = 304 then
      remove_entity_headers headers2
    else headers2
  let contentLength :=
    if (100 ≤ status ∧ status < 200) ∨ status = 204 then some "0" else contentLength0
  if r.automaticallySetContentLength = true ∧ is_sequence r.response = true
      ∧ contentLength = none ∧ status ≠ 304 then
    match bodyAsciiLen r.response with
    | some n => headersSet headers3 "Content-Length" (toString n)
    | none => headers3
  else headers3

/-- Replacement `escape` performs for a single character. -/
def escapeChar (c : Char) : List Char :=
  if c = '&' then "&amp;".toList
  else if c = '<' then "&lt;".toList
  else if c = '>' then "&gt;".toList
  else if c = '"' then "&quot;".toList
  else [c]

/-- Model of `escape` on a character list. -/
def escapeList (l : List Char) : List Char :=
  (l.map escapeChar).flatten

/-- Model of `escape` on text input (the `None`, `__html__` and non-string
branches coerce their input to text first and are outside the claims'
scope; the `quote` parameter is ignored by the source). -/
def escape (s : String) : String := ⟨escapeList s.data⟩

/-- Modelled from the spec: the named-entity table used by `unescape`
(`HTMLBuilder._entities`, built from the stdlib `name2codepoint` table,
absent from the excerpt).  It contains the entities produced by `escape`
plus representative further names. -/
def entityTable : List (List Char × Nat) :=
  [("amp".toList, 38), ("lt".toList, 60), ("gt".toList, 62),
   ("quot".toList, 34), ("nbsp".toList, 160), ("auml".toList, 228),
   ("uuml".toList, 252)]

/-- Decimal digit value of a character, `none` when not a digit. -/
def decDigit (c : Char) : Option Nat :=
  if '0' ≤ c ∧ c ≤ '9' then some (c.toNat - 48) else none

/-- Hexadecimal digit value of a character, `none` when not a hex digit. -/
def hexDigit (c : Char) : Option Nat :=
  if '0' ≤ c ∧ c ≤ '9' then some (c.toNat - 48)
  else if 'a' ≤ c ∧ c ≤ 'f' then some (c.toNat - 87)
  else if 'A' ≤ c ∧ c ≤ 'F' then some (c.toNat - 55)
  else none

/-- Model of Python `int(s, base)` on an entity payload: digits only, `none`
(a `ValueError`) on an empty or malformed string.  Python `int`'s tolerance
for surrounding whitespace and a sign is not modelled; it is unreachable
from `escape` output. -/
def parseNat (base : Nat) (digit : Char → Option Nat) (l : List Char) : Option Nat :=
  match l with
  | [] => none
  | _ => l.foldlM (fun acc c => (digit c).map (fun d => acc * base + d)) 0

/-- Model of the `handle_match` replacement inside `unescape`: named
entities via the table, `&#xHH;` / `&#NN;` numeric references, and anything
unresolvable — including an invalid code point, whose `ValueError` is
swallowed — becomes the empty string. -/
def entityRepl (name : List Char) : List Char :=
  match entityTable.lookup name with
  | some n => if n.isValidChar then [Char.ofNat n] else []
  | none =>
    if name.take 2 = ['#', 'x'] ∨ name.take 2 = ['#', 'X'] then
      match parseNat 16 hexDigit (name.drop 2) with
      | some n => if n.isValidChar then [Char.ofNat n] else []
      | none => []
    else if name.take 1 = ['#'] then
      match parseNat 10 decDigit (name.drop 1) with
      | some n => if n.isValidChar then [Char.ofNat n] else []
      | none => []
    else []

/-- Model of `unescape`'s single left-to-right pass of
`re.sub(r'&([^;]+);', handle_match, s)`: at an ampersand followed by a
nonempty run of non-semicolon characters and a semicolon, the reference is
replaced by `entityRepl` and scanning continues after the semicolon; at any
other position the character is kept. -/
def unescapeList : List Char → List Char
  | [] => []
  | c :: rest =>
    if c = '&' then
      let name := rest.takeWhile (fun d => d ≠ ';')
      if name.length < rest.length ∧ name ≠ [] then
        entityRepl name ++ unescapeList (rest.drop (name.length + 1))
      else
        '&' :: unescapeList rest
    else
      c :: unescapeList rest
termination_by l => l.length
decreasing_by
  all_goals simp_all [List.length_drop]
  all_goals omega

/-- Model of `unescape` on text input. -/
def unescape (s : String) : String := ⟨unescapeList s.data⟩

/-- Whitespace characters Python `str.split()` splits on. -/
def isPyWhitespace (c : Char) : Bool :=
  c == ' ' || c == '\t' || c == '\n' || c == '\r' || c == '\x0b' || c == '\x0c'

/-- Modelled from the stdlib calls in `secure_filename`:
`normalize('NFKD', filename).encode('ascii', 'ignore')`.  ASCII characters
are kept; the non-ASCII characters exercised by the documented examples
decompose to their base letter with the combining mark dropped; any other
non-ASCII character is dropped by the `'ignore'` error handler (characters
with further NFKD decompositions are outside the modelled table). -/
def nfkdAscii (c : Char) : List Char :=
  if c.toNat < 128 then [c]
  else if c = 'ü' then ['u']
  else if c = 'ä' then ['a']
  else []

/-- Python `str.split()` with no separator: split on whitespace runs,
dropping the empty pieces. -/
def pySplit (l : List Char) : List (List Char) :=
  (l.splitOnP isPyWhitespace).filter (fun w => w ≠ [])

/-- Characters kept by `_filename_ascii_strip_re`: the class
`[A-Za-z0-9_.-]`. -/
def isSafeFilenameChar (c : Char) : Bool :=
  (65 ≤ c.toNat && c.toNat ≤ 90) || (97 ≤ c.toNat && c.toNat ≤ 122) ||
  (48 ≤ c.toNat && c.toNat ≤ 57) || c == '_' || c == '.' || c == '-'

/-- Characters stripped from both ends by `.strip('._')`. -/
def isStripChar (c : Char) : Bool := c == '.' || c == '_'

/-- Python `str.strip('._')`: drop the stripped characters from the front,
then from the back. -/
def stripDotsUnderscores (l : List Char) : List Char :=
  (l.dropWhile isStripChar).rdropWhile isStripChar

/-- Model of `secure_filename` on the POSIX platform the tests run on:
`os.path.sep` is `'/'`, `os.path.altsep` is `None`, and the
`os.name == 'nt'` device-file branch is not taken. -/
def secure_filename (s : String) : String :=
  let ascii := (s.data.map nfkdAscii).flatten
  let replaced := ascii.map (fun c => if c = '/' then ' ' else c)
  let joined := List.intercalate ['_'] (pySplit replaced)
  let stripped := joined.filter isSafeFilenameChar
  ⟨stripDotsUnderscores stripped⟩

/-- Python values passed to an `Aborter` call: an integer status code, a
text, or some other object such as a pre-built response, identified by a
token. -/
inductive PyVal where
  | int (n : Int)
  | str (s : String)
  | obj (id : Nat)
deriving DecidableEq

/-- Python `isinstance(code, integer_types)`. -/
def PyVal.isInt : PyVal → Bool
  | .int _ => true
  | _ => false

/-- Python truthiness of the modelled values: integers and strings are falsy
when zero or empty; other objects are truthy. -/
def PyVal.isTruthy : PyVal → Bool
  | .int n => n ≠ 0
  | .str s => s ≠ ""
  | .obj _ => true

/-- Association-list model of a Python `dict` from status code to exception
class, classes being named by tokens. -/
abbrev ExcDict := List (Int × Nat)

/-- Python `d[k] = v`: replace the value in place when the key exists,
append a new entry otherwise. -/
def dictSet : ExcDict → Int → Nat → ExcDict
  | [], k, v => [(k, v)]
  | (k0, v0) :: rest, k, v =>
    if k0 = k then (k, v) :: rest else (k0, v0) :: dictSet rest k v

/-- Python `d.update(e)`: set every entry of `e` in turn. -/
def dictUpdate (d : ExcDict) (e : ExcDict) : ExcDict :=
  e.foldl (fun acc p => dictSet acc p.1 p.2) d

/-- Python `k in d` / `d[k]` lookup. -/
def dictGet : ExcDict → Int → Option Nat
  | [], _ => none
  | (k0, v0) :: rest, k => if k0 = k then some v0 else dictGet rest k

/-- Class token naming `MethodNotAllowed`. -/
def methodNotAllowedClass : Nat := 1

/-- Modelled from the spec: `default_exceptions` is populated at module load
by `_find_exceptions`, which scans every class with a non-absent `code`
attribute; the excerpt defines `MethodNotAllowed` with code 405. -/
def default_exceptions : ExcDict := [(405, methodNotAllowedClass)]

/-- Model of `Aborter.__init__`: the stored mapping is a fresh
`dict(mapping)` — the argument, defaulting to `default_exceptions`, is only
read — updated in place with the `extra` entries. -/
def aborterInit (mapping : Option ExcDict) (extra : Option ExcDict) : ExcDict :=
  let base := mapping.getD default_exceptions
  match extra with
  | none => base
  | some e => dictUpdate base e

/-- Outcome of `Aborter.__call__`: each constructor names the exception the
call raises. -/
inductive AbortResult where
  | wrappedResponse (resp : PyVal)
  | lookupError (msg : String)
  | mappedException (cls : Nat) (args : List PyVal) (kwargs : List (String × PyVal))
deriving DecidableEq

/-- Python `'%r' % code` for the modelled values; an `obj` token renders as
an angle-bracketed object display. -/
def reprPyVal : PyVal → String
  | .int n => toString n
  | .str s => "\x27" ++ s ++ "\x27"
  | .obj id => "<obj " ++ toString id ++ ">"

/-- Model of `Aborter.__call__`. -/
def aborterCall (mapping : ExcDict) (code : PyVal) (args : List PyVal)
    (kwargs : List (String × PyVal)) : AbortResult :=
  if args = [] ∧ kwargs = [] ∧ code.isInt = false then
    .wrappedResponse code
  else
    match code with
    | .int n =>
      match dictGet mapping n with
      | some cls => .mappedException cls args kwargs
      | none => .lookupError ("no exception for " ++ toString n)
    | v => .lookupError ("no exception for " ++ reprPyVal v)

/-- Configuration of a `Map` relevant to `bind` and `get_host`. -/
structure RoutingMap where
  defaultSubdomain : String
  hostMatching : Bool
deriving DecidableEq

/-- Per-request binding produced by `Map.bind` (`MapAdapter`); only the
fields the verified operations read are modelled. -/
structure MapAdapter where
  map : RoutingMap
  serverName : String
  scriptName : String
  subdomain : Option String
deriving DecidableEq

/-- Model of `Map.bind`.  `encodeIdna` abstracts `_encode_idna` from
`werkzeug._internal`, absent from the excerpt; the claims hold for every
choice of it.  The configuration error is the `RuntimeError` the source
raises when a subdomain is supplied under host matching.  The trailing
slash on the script name is appended by `MapAdapter.__init__`. -/
def bind (encodeIdna : String → String) (m : RoutingMap) (serverName : String)
    (scriptName : Option String) (subdomain : Option String) :
    Except String MapAdapter :=
  let sn := lowerStr serverName
  if m.hostMatching ∧ subdomain ≠ none then
    .error "host matching enabled and a subdomain was provided"
  else
    let subdomain := if m.hostMatching then subdomain
      else match subdomain with
        | none => some m.defaultSubdomain
        | s => s
    let scriptName0 := scriptName.getD "/"
    let scriptName1 := if scriptName0.endsWith "/" then scriptName0 else scriptName0 ++ "/"
    .ok ⟨m, encodeIdna sn, scriptName1, subdomain⟩

/-- Model of `MapAdapter.get_host`; in subdomain mode the Python expression
`(subdomain and subdomain + u'.' or u'') + self.server_name` omits the dot
for an empty (or absent) subdomain. -/
def get_host (a : MapAdapter) (domainPart : Option String) : String :=
  if a.map.hostMatching then
    match domainPart with
    | none => a.serverName
    | some d => d
  else
    let subdomain := match domainPart with
      | none => a.subdomain
      | some d => some d
    match subdomain with
    | some s => if s ≠ "" then s ++ "." ++ a.serverName else a.serverName
    | none => a.serverName

/-- Opaque argument values for `validate_arguments`. -/
abbrev Val := Nat

/-- One declared parameter of a Python function: a name and an optional
default value (an `arg_spec` entry of `_parse_signature`). -/
structure Param where
  name : String
  default : Option Val
deriving DecidableEq

/-- Value bound to a keyword in a kwargs dict. -/
def kwGet : List (String × Val) → String → Option Val
  | [], _ => none
  | (k, v) :: rest, n => if k = n then some v else kwGet rest n

/-- Python `kwargs.pop(name)`: the dict without the entry for `name`. -/
def kwErase : List (String × Val) → String → List (String × Val)
  | [], _ => []
  | (k, v) :: rest, n => if k = n then rest else (k, v) :: kwErase rest n

/-- Modelled from the spec and the test suite: the argument parser built by
`_parse_signature` (`werkzeug._internal`, absent from the excerpt) for a
function with plain positional-or-keyword parameters and no variadic
capture.  Walking the declared parameters in order, each is filled from the
positional arguments first — a keyword duplicating a positionally filled
parameter is popped and recorded as extra — then popped from the keyword
arguments, then from its default; otherwise its name is recorded as
missing.  Returns `(new_args, missing, duplicate_extra, leftover_kwargs)`. -/
def fillParams : List Param → List Val → List (String × Val) →
    List Val × List String × List (String × Val) × List (String × Val)
  | [], _, kws => ([], [], [], kws)
  | p :: ps, a :: rest, kws =>
    let dup := kwGet kws p.name
    let r := fillParams ps rest (kwErase kws p.name)
    (a :: r.1,
     r.2.1,
     (match dup with
      | some v => (p.name, v) :: r.2.2.1
      | none => r.2.2.1),
     r.2.2.2)
  | p :: ps, [], kws =>
    match kwGet kws p.name with
    | some v =>
      let r := fillParams ps [] (kwErase kws p.name)
      (v :: r.1, r.2.1, r.2.2.1, r.2.2.2)
    | none =>
      match p.default with
      | some d =>
        let r := fillParams ps [] kws
        (d :: r.1, r.2.1, r.2.2.1, r.2.2.2)
      | none =>
        let r := fillParams ps [] kws
        (r.1, p.name :: r.2.1, r.2.2.1, r.2.2.2)

/-- Data carried by `ArgumentValidationError`. -/
structure ArgumentValidationError where
  missing : List String
  extra : List (String × Val)
  extraPositional : List Val
deriving DecidableEq

/-- Model of `validate_arguments` for a function with the modelled
signature: parse, raise on missing required names, raise on extras when
`drop_extra` is false, otherwise return the filled positional tuple
together with the — by then fully drained — kwargs dict. -/
def validate_arguments (ps : List Param) (args : List Val)
    (kwargs : List (String × Val)) (dropExtra : Bool) :
    Except ArgumentValidationError (List Val × List (String × Val)) :=
  let r := fillParams ps args kwargs
  let extra := r.2.2.1 ++ r.2.2.2
  let extraPos := args.drop ps.length
  if r.2.1 ≠ [] then .error ⟨r.2.1, [], []⟩
  else if (extra ≠ [] ∨ extraPos ≠ []) ∧ dropExtra = false then
    .error ⟨[], extra, extraPos⟩
  else .ok (r.1, [])

/-- Specification-side description of the required parameter names a call
leaves unfilled: the declared parameters beyond the positional arguments
that have no default and no keyword argument. -/
def missingRequiredNames (ps : List Param) (args : List Val)
    (kwargs : List (String × Val)) : List String :=
  ((ps.drop args.length).filter
    (fun p => p.default == none && kwGet kwargs p.name == none)).map (fun p => p.name)

/-- Whether an `Except` computation raised. -/
def isError {ε α : Type} : Except ε α → Bool
  | .error _ => true
  | .ok _ => false

/-- Claim-side predicate on a filename: it neither starts nor ends with a
character stripped by `.strip('._')`. -/
def noEdgeStrip (l : List Char) : Bool :=
  (match l.head? with
   | some c => !(isStripChar c)
   | none => true) &&
  (match l.getLast? with
   | some c => !(isStripChar c)
   | none => true)

instance {ε α : Type} [DecidableEq ε] [DecidableEq α] : DecidableEq (Except ε α) :=
  fun x y =>
    match x, y with
    | .ok a, .ok b => if h : a = b then .isTrue (by rw [h]) else .isFalse (by simp [h])
    | .error a, .error b => if h : a = b then .isTrue (by rw [h]) else .isFalse (by simp [h])
    | .ok _, .error _ => .isFalse (by simp)
    | .error _, .ok _ => .isFalse (by simp)

/-! Theorems.  Each claim of the specification is settled by one theorem
below; shared helper lemmas come first. -/

/-- A response whose body has just been buffered by `make_sequence` reports
`is_sequence`. -/
theorem is_sequence_make_sequence (r : BaseResponse) :
    is_sequence (make_sequence r).response = true := by
  rw [make_sequence]
  by_cases h : is_sequence r.response = true
  · rw [if_pos h]
    exact h
  · rw [if_neg h]
    rfl

/-- C10: for a response whose `response` attribute is already a list or
tuple, `make_sequence` changes nothing — the body stays as is and no
on-close callback is registered — and consequently calling `make_sequence`
twice has the same effect as calling it once. -/
theorem make_sequence_idempotent :
    (∀ r : BaseResponse, is_sequence r.response = true → make_sequence r = r) ∧
    (∀ r : BaseResponse, make_sequence (make_sequence r) = make_sequence r) := by
  have noop : ∀ r : BaseResponse, is_sequence r.response = true → make_sequence r = r := by
    intro r h
    simp [make_sequence, h]
  exact ⟨noop, fun r => noop _ (is_sequence_make_sequence r)⟩

/-- Witness for C10 at a concrete buffered response. -/
theorem make_sequence_idempotent_witness :
    make_sequence
        { response := .sequence [.bytes [104, 105]], statusCode := 200,
          headers := [], directPassthrough := false } =
      { response := .sequence [.bytes [104, 105]], statusCode := 200,
        headers := [], directPassthrough := false } :=
  make_sequence_idempotent.1 _ (by decide)

/-- C1 counterexample: for a direct-passthrough response with status 200
receiving a GET request, `get_app_iter` returns the raw body unwrapped, so
neither consuming nor closing the returned iterable triggers the response's
`close()` method. -/
theorem get_app_iter_close_counterexample :
    wrapsResponseClose
        (get_app_iter
          { response := .iterable [.bytes [104]] true, statusCode := 200,
            headers := [], directPassthrough := true } "GET") = false := by
  decide

/-- C1 amended: the iterable returned by `get_app_iter` triggers the
response's `close()` method when consumed to completion or explicitly closed
if and only if the request method is HEAD, the status is informational, 204
or 304, or `direct_passthrough` is disabled; in the remaining case —
`direct_passthrough` enabled with a body-carrying status — the raw body is
returned unwrapped and `close()` is not triggered. -/
theorem get_app_iter_close_amended (r : BaseResponse) (m : String) :
    (wrapsResponseClose (get_app_iter r m) = true ↔
      (m = "HEAD" ∨ (100 ≤ r.statusCode ∧ r.statusCode < 200) ∨
        r.statusCode = 204 ∨ r.statusCode = 304 ∨ r.directPassthrough = false)) ∧
    (wrapsResponseClose (get_app_iter r m) = false →
      get_app_iter r m = .raw r.response) := by
  unfold get_app_iter
  by_cases h1 : m = "HEAD" ∨ (100 ≤ r.statusCode ∧ r.statusCode < 200)
      ∨ r.statusCode = 204 ∨ r.statusCode = 304
  · rw [if_pos h1]
    exact ⟨by simp [wrapsResponseClose]; tauto, by simp [wrapsResponseClose]⟩
  · rw [if_neg h1]
    by_cases h2 : r.directPassthrough = true
    · rw [if_pos h2]
      refine ⟨?_, by simp [wrapsResponseClose]⟩
      simp only [wrapsResponseClose]
      constructor
      · intro hff
        cases hff
      · intro hrhs
        rcases hrhs with h | h | h | h | h
        · exact absurd (Or.inl h) h1
        · exact absurd (Or.inr (Or.inl h)) h1
        · exact absurd (Or.inr (Or.inr (Or.inl h))) h1
        · exact absurd (Or.inr (Or.inr (Or.inr h))) h1
        · rw [h2] at h
          cases h
    · rw [if_neg h2]
      refine ⟨?_, by simp [wrapsResponseClose]⟩
      simp only [wrapsResponseClose, true_iff]
      exact Or.inr (Or.inr (Or.inr (Or.inr (by simpa using h2))))

/-- Witness for the amended C1 at a direct-passthrough response receiving a
POST request. -/
theorem get_app_iter_close_amended_witness :
    get_app_iter
        { response := .iterable [.bytes [104]] true, statusCode := 201,
          headers := [], directPassthrough := true } "POST" =
      .raw (.iterable [.bytes [104]] true) :=
  (get_app_iter_close_amended
    { response := .iterable [.bytes [104]] true, statusCode := 201,
      headers := [], directPassthrough := true } "POST").2 (by decide)

/-- C4: `Aborter.__call__` wraps a single truthy non-integer argument as a
pre-built response inside a generic `HTTPException`; otherwise an integer
status code absent from the mapping raises a `LookupError` whose message is
`no exception for <code>`, and a present code raises the mapped exception
class constructed with the remaining positional and keyword arguments. -/
theorem aborter_call_spec (mapping : ExcDict) (code : PyVal)
    (args : List PyVal) (kwargs : List (String × PyVal)) :
    (args = [] → kwargs = [] → code.isInt = false → code.isTruthy = true →
      aborterCall mapping code args kwargs = .wrappedResponse code) ∧
    (∀ n : Int, code = .int n → dictGet mapping n = none →
      aborterCall mapping code args kwargs =
        .lookupError ("no exception for " ++ toString n)) ∧
    (∀ n : Int, ∀ cls : Nat, code = .int n → dictGet mapping n = some cls →
      aborterCall mapping code args kwargs = .mappedException cls args kwargs) := by
  refine ⟨fun ha hk hi _ => ?_, fun n hc hd => ?_, fun n cls hc hd => ?_⟩
  · simp [aborterCall, ha, hk, hi]
  · subst hc
    simp [aborterCall, PyVal.isInt, hd]
  · subst hc
    simp [aborterCall, PyVal.isInt, hd]

/-- Witness for C4 exercising all three branches on the default registry. -/
theorem aborter_call_spec_witness :
    aborterCall default_exceptions (.str "resp") [] [] = .wrappedResponse (.str "resp") ∧
    aborterCall default_exceptions (.int 404) [] [] =
      .lookupError ("no exception for " ++ toString (404 : Int)) ∧
    aborterCall default_exceptions (.int 405) [.str "GET"] [] =
      .mappedException methodNotAllowedClass [.str "GET"] [] :=
  ⟨(aborter_call_spec _ _ _ _).1 rfl rfl (by decide) (by decide),
   (aborter_call_spec _ _ _ _).2.1 404 rfl (by decide),
   (aborter_call_spec _ _ _ _).2.2 405 methodNotAllowedClass rfl (by decide)⟩

/-- C5: `Map.bind` raises its configuration error exactly when a subdomain
is supplied while host matching is enabled; with no subdomain and host
matching disabled the adapter's subdomain is the map's default; and every
adapter produced carries the IDNA-encoded form of the lower-cased server
name. -/
theorem bind_spec (f : String → String) (m : RoutingMap) (sn : String)
    (scn : Option String) (sd : Option String) :
    (isError (bind f m sn scn sd) = true ↔
      (m.hostMatching = true ∧ sd.isSome = true)) ∧
    (m.hostMatching = false → sd = none →
      ∃ a, bind f m sn scn sd = .ok a ∧ a.subdomain = some m.defaultSubdomain) ∧
    (∀ a, bind f m sn scn sd = .ok a → a.serverName = f (lowerStr sn)) := by
  cases hm : m.hostMatching <;> rcases sd with _ | s <;> refine ⟨?_, ?_, ?_⟩
  · simp [bind, isError, hm]
  · intro _ _
    refine ⟨{ map := m, serverName := f (lowerStr sn),
              scriptName := if (scn.getD "/").endsWith "/" = true then scn.getD "/"
                else scn.getD "/" ++ "/",
              subdomain := some m.defaultSubdomain }, ?_, rfl⟩
    simp [bind, hm]
  · intro a ha
    simp only [bind, hm] at ha
    split at ha
    · cases ha
    · injection ha with h
      subst h
      rfl
  · simp [bind, isError, hm]
  · intro _ h
    cases h
  · intro a ha
    simp only [bind, hm] at ha
    split at ha
    · cases ha
    · injection ha with h
      subst h
      rfl
  · simp [bind, isError, hm]
  · intro h _
    cases h
  · intro a ha
    simp only [bind, hm] at ha
    split at ha
    · cases ha
    · injection ha with h
      subst h
      rfl
  · simp [bind, isError, hm]
  · intro h _
    cases h
  · intro a ha
    simp only [bind, hm] at ha
    split at ha
    · cases ha
    · injection ha with h
      subst h
      rfl

/-- Witness for C5: binding `EXAMPLE.com` in subdomain mode. -/
theorem bind_spec_witness :
    (∃ a, bind id ⟨"www", false⟩ "EXAMPLE.com" none none = .ok a ∧
      a.subdomain = some "www") ∧
    (∀ a, bind id ⟨"www", false⟩ "EXAMPLE.com" none none = .ok a →
      a.serverName = id (lowerStr "EXAMPLE.com")) :=
  ⟨(bind_spec id ⟨"www", false⟩ "EXAMPLE.com" none none).2.1 rfl rfl,
   (bind_spec id ⟨"www", false⟩ "EXAMPLE.com" none none).2.2⟩

/-- C6: `MapAdapter.get_host` returns the bound server name or the verbatim
domain part under host matching, and otherwise composes
`subdomain + '.' + server_name` — taking the adapter's subdomain when no
domain part is given and omitting dot and subdomain when the subdomain is
empty. -/
theorem get_host_spec (a : MapAdapter) :
    (a.map.hostMatching = true →
      get_host a none = a.serverName ∧ ∀ d, get_host a (some d) = d) ∧
    (a.map.hostMatching = false →
      (∀ d, get_host a (some d) =
        if d = "" then a.serverName else d ++ "." ++ a.serverName) ∧
      (∀ s, a.subdomain = some s →
        get_host a none =
          if s = "" then a.serverName else s ++ "." ++ a.serverName) ∧
      (a.subdomain = none → get_host a none = a.serverName)) := by
  refine ⟨fun h => ⟨?_, fun d => ?_⟩, fun h => ⟨fun d => ?_, fun s hs => ?_, fun hs => ?_⟩⟩
  · simp [get_host, h]
  · simp [get_host, h]
  · by_cases hd : d = "" <;> simp [get_host, h, hd]
  · by_cases hs0 : s = "" <;> simp [get_host, h, hs, hs0]
  · simp [get_host, h, hs]

/-- Witness for C6 on concrete adapters in both modes. -/
theorem get_host_spec_witness :
    get_host ⟨⟨"", true⟩, "example.com", "/", none⟩ (some "h.org") = "h.org" ∧
    get_host ⟨⟨"", false⟩, "example.com", "/", some "blog"⟩ none = "blog.example.com" ∧
    get_host ⟨⟨"", false⟩, "example.com", "/", some ""⟩ none = "example.com" :=
  ⟨((get_host_spec ⟨⟨"", true⟩, "example.com", "/", none⟩).1 rfl).2 "h.org",
   by
    have h := ((get_host_spec ⟨⟨"", false⟩, "example.com", "/", some "blog"⟩).2 rfl).2.1
      "blog" rfl
    simpa using h,
   by
    have h := ((get_host_spec ⟨⟨"", false⟩, "example.com", "/", some ""⟩).2 rfl).2.1
      "" rfl
    simpa using h⟩

/-- Setting a key makes lookups of that key return the new value. -/
theorem dictGet_dictSet_same (d : ExcDict) (k : Int) (v : Nat) :
    dictGet (dictSet d k v) k = some v := by
  induction d with
  | nil => simp [dictSet, dictGet]
  | cons p rest ih =>
    obtain ⟨k0, v0⟩ := p
    by_cases h : k0 = k
    · simp [dictSet, h, dictGet]
    · simp [dictSet, h, dictGet, ih]

/-- Setting a key leaves lookups of other keys unchanged. -/
theorem dictGet_dictSet_other (d : ExcDict) (k k2 : Int) (v : Nat) (h : k ≠ k2) :
    dictGet (dictSet d k v) k2 = dictGet d k2 := by
  induction d with
  | nil => simp [dictSet, dictGet, h]
  | cons p rest ih =>
    obtain ⟨k0, v0⟩ := p
    by_cases h0 : k0 = k
    · subst h0
      simp [dictSet, dictGet, h]
    · simp [dictSet, h0, dictGet, ih]

/-- A lookup misses exactly when the key is absent. -/
theorem dictGet_eq_none_iff (d : ExcDict) (k : Int) :
    dictGet d k = none ↔ k ∉ d.map Prod.fst := by
  induction d with
  | nil => simp [dictGet]
  | cons p rest ih =>
    obtain ⟨k0, v0⟩ := p
    by_cases h : k0 = k
    · subst h
      simp [dictGet]
    · simp [dictGet, h, ih, Ne.symm h]

/-- Lookup in an updated dict: entries of the override win, all other keys
keep the base dict's value. -/
theorem dictGet_dictUpdate (d e : ExcDict) (he : (e.map Prod.fst).Nodup) (k : Int) :
    dictGet (dictUpdate d e) k = (dictGet e k).or (dictGet d k) := by
  induction e generalizing d with
  | nil => simp [dictUpdate, dictGet]
  | cons p rest ih =>
    obtain ⟨k0, v0⟩ := p
    have hboth : k0 ∉ rest.map Prod.fst ∧ (rest.map Prod.fst).Nodup := by
      simpa [List.nodup_cons] using he
    obtain ⟨hk0, hrest⟩ := hboth
    have step : dictUpdate d ((k0, v0) :: rest) = dictUpdate (dictSet d k0 v0) rest := rfl
    rw [step, ih _ hrest]
    by_cases h : k0 = k
    · subst h
      have hnone : dictGet rest k0 = none := (dictGet_eq_none_iff _ _).mpr hk0
      simp [dictGet, hnone, dictGet_dictSet_same]
    · simp [dictGet, h, dictGet_dictSet_other _ _ _ _ h]

/-- C9: `Aborter.__init__` stores a fresh merge of the base mapping with the
`extra` overrides: every key present in `extra` maps to `extra`'s value,
every other key keeps the base mapping's value, and — the model being a
value-semantics rendering of `dict(mapping)` followed by `update` — the
argument mapping and the module-level `default_exceptions` table are left
untouched: with no `extra` the stored dict equals the base mapping value. -/
theorem aborter_init_spec (m e : ExcDict) (he : (e.map Prod.fst).Nodup) :
    (∀ k, dictGet (aborterInit (some m) (some e)) k =
      (dictGet e k).or (dictGet m k)) ∧
    aborterInit (some m) none = m ∧
    aborterInit none none = default_exceptions ∧
    (∀ k, dictGet (aborterInit none (some e)) k =
      (dictGet e k).or (dictGet default_exceptions k)) :=
  ⟨fun k => dictGet_dictUpdate m e he k, rfl, rfl,
   fun k => dictGet_dictUpdate default_exceptions e he k⟩

/-- Witness for C9 on a concrete base mapping and override. -/
theorem aborter_init_spec_witness :
    dictGet (aborterInit (some [(404, 9), (405, 8)]) (some [(405, 1), (410, 2)])) 405 =
      (dictGet [(405, 1), (410, 2)] 405).or (dictGet [(404, 9), (405, 8)] 405) ∧
    dictGet (aborterInit (some [(404, 9), (405, 8)]) (some [(405, 1), (410, 2)])) 404 =
      (dictGet [(405, 1), (410, 2)] 404).or (dictGet [(404, 9), (405, 8)] 404) :=
  ⟨(aborter_init_spec [(404, 9), (405, 8)] [(405, 1), (410, 2)] (by decide)).1 405,
   (aborter_init_spec [(404, 9), (405, 8)] [(405, 1), (410, 2)] (by decide)).1 404⟩

/-- Every character surviving `.strip('._')` comes from the input. -/
theorem mem_of_mem_stripDotsUnderscores {x : Char} {l : List Char}
    (hx : x ∈ stripDotsUnderscores l) : x ∈ l := by
  rw [stripDotsUnderscores, List.rdropWhile, List.mem_reverse] at hx
  have hx2 := (List.dropWhile_sublist isStripChar).subset hx
  rw [List.mem_reverse] at hx2
  exact (List.dropWhile_sublist isStripChar).subset hx2

/-- Head preservation of the right strip: when the result is nonempty it
keeps the head of its input. -/
theorem head?_rdropWhile_of_ne_nil {α : Type} (p : α → Bool) (m : List α)
    (h : m.rdropWhile p ≠ []) : (m.rdropWhile p).head? = m.head? := by
  rw [List.rdropWhile, List.head?_reverse]
  have hd : m.reverse.dropWhile p ≠ [] := by
    intro hnil
    apply h
    rw [List.rdropWhile, hnil, List.reverse_nil]
  obtain ⟨t, ht⟩ := List.dropWhile_suffix (l := m.reverse) p
  have hsome : (m.reverse.dropWhile p).getLast?.isSome := by simpa using hd
  obtain ⟨x, hx⟩ := Option.isSome_iff_exists.mp hsome
  have h2 : m.reverse.getLast? = m.head? := List.getLast?_reverse m
  rw [← ht, List.getLast?_append, hx] at h2
  rw [hx]
  simpa using h2

/-- The result of `.strip('._')` neither starts nor ends with a stripped
character. -/
theorem noEdgeStrip_stripDotsUnderscores (l : List Char) :
    noEdgeStrip (stripDotsUnderscores l) = true := by
  by_cases hnil : stripDotsUnderscores l = []
  · rw [hnil]
    rfl
  · have hres : stripDotsUnderscores l = (l.dropWhile isStripChar).rdropWhile isStripChar :=
      rfl
    unfold noEdgeStrip
    rcases hh : (stripDotsUnderscores l).head? with _ | c
    · exact absurd (List.head?_eq_none_iff.mp hh) hnil
    rcases hg : (stripDotsUnderscores l).getLast? with _ | d
    · exact absurd (List.getLast?_eq_none_iff.mp hg) hnil
    have hc : isStripChar c = false := by
      have hhd : (stripDotsUnderscores l).head? = (l.dropWhile isStripChar).head? := by
        rw [hres]
        exact head?_rdropWhile_of_ne_nil _ _ (hres ▸ hnil)
      have h3 := List.head?_dropWhile_not isStripChar l
      rw [← hhd, hh] at h3
      exact h3
    have hd : isStripChar d = false := by
      have h4 := List.rdropWhile_last_not isStripChar (l.dropWhile isStripChar)
        (hres ▸ hnil)
      have h5 := List.getLast?_eq_getLast (stripDotsUnderscores l) hnil
      rw [hg] at h5
      have h6 : d = (stripDotsUnderscores l).getLast hnil := Option.some.inj h5
      rw [h6]
      exact Bool.not_eq_true _ ▸ (by simpa using h4)
    simp [hc, hd]

/-- C8: `secure_filename` produces the documented results on the three
reference inputs, collapses a whitespace run to a single underscore, keeps
only characters from `[A-Za-z0-9_.-]`, and neither starts nor ends with a
dot or underscore. -/
theorem secure_filename_spec :
    secure_filename "My cool movie.mov" = "My_cool_movie.mov" ∧
    secure_filename "../../../etc/passwd" = "etc_passwd" ∧
    secure_filename "i contain cool ümläuts.txt" = "i_contain_cool_umlauts.txt" ∧
    secure_filename "a \t b" = "a_b" ∧
    (∀ s : String, (secure_filename s).data.all isSafeFilenameChar = true) ∧
    (∀ s : String, noEdgeStrip (secure_filename s).data = true) := by
  refine ⟨by decide, by decide, by decide, by decide, fun s => ?_, fun s => ?_⟩
  · rw [List.all_eq_true]
    intro x hx
    have hx2 := mem_of_mem_stripDotsUnderscores hx
    exact List.of_mem_filter hx2
  · exact noEdgeStrip_stripDotsUnderscores _

/-- A run of characters free of semicolons is exactly what the scanner's
`takeWhile` collects in front of the closing semicolon. -/
theorem takeWhile_no_semi (t : List Char) :
    ∀ name : List Char, (∀ x ∈ name, x ≠ ';') →
      (name ++ ';' :: t).takeWhile (fun d => decide (d ≠ ';')) = name
  | [], _ => by simp [List.takeWhile]
  | x :: xs, hsemi => by
    have hx : x ≠ ';' := hsemi x (by simp)
    simp only [List.cons_append, List.takeWhile_cons]
    rw [if_pos (by simpa using hx),
      takeWhile_no_semi t xs (fun y hy => hsemi y (List.mem_cons_of_mem x hy))]

/-- Scanning step of `unescape` at a character reference: a nonempty name
free of semicolons followed by a semicolon is replaced and scanning resumes
after it. -/
theorem unescapeList_entity_step (name t : List Char)
    (hn : name ≠ []) (hsemi : ∀ x ∈ name, x ≠ ';') :
    unescapeList ('&' :: name ++ ';' :: t) = entityRepl name ++ unescapeList t := by
  have htake : (name ++ ';' :: t).takeWhile (fun d => decide (d ≠ ';')) = name :=
    takeWhile_no_semi t name hsemi
  have hdrop : (name ++ ';' :: t).drop (name.length + 1) = t := by
    have h1 : name ++ ';' :: t = (name ++ [';']) ++ t := by simp
    have h2 : (name ++ [';']).length = name.length + 1 := by simp
    rw [h1, ← h2, List.drop_left]
  rw [unescapeList.eq_def]
  simp only [List.cons_append, if_true]
  rw [htake]
  rw [if_pos ⟨by simp only [List.length_append, List.length_cons]; omega, hn⟩]
  rw [hdrop]

/-- Scanning step of `unescape` at an ordinary character. -/
theorem unescapeList_cons_ne (c : Char) (rest : List Char) (h : c ≠ '&') :
    unescapeList (c :: rest) = c :: unescapeList rest := by
  rw [unescapeList.eq_def]
  simp [h]

/-- Round trip on character lists: every reference `escape` introduces is
resolved back to the original character by `unescape`, and all other
characters pass through unchanged. -/
theorem unescapeList_escapeList (l : List Char) :
    unescapeList (escapeList l) = l := by
  induction l with
  | nil =>
    rw [show escapeList [] = [] from rfl, unescapeList.eq_def]
  | cons c rest ih =>
    have hstep : escapeList (c :: rest) = escapeChar c ++ escapeList rest := by
      simp [escapeList]
    rw [hstep]
    by_cases h1 : c = '&'
    · subst h1
      have hform : escapeChar '&' ++ escapeList rest =
          '&' :: ['a', 'm', 'p'] ++ ';' :: escapeList rest := rfl
      rw [hform, unescapeList_entity_step _ _ (by decide) (by decide), ih]
      rfl
    by_cases h2 : c = '<'
    · subst h2
      have hform : escapeChar '<' ++ escapeList rest =
          '&' :: ['l', 't'] ++ ';' :: escapeList rest := rfl
      rw [hform, unescapeList_entity_step _ _ (by decide) (by decide), ih]
      rfl
    by_cases h3 : c = '>'
    · subst h3
      have hform : escapeChar '>' ++ escapeList rest =
          '&' :: ['g', 't'] ++ ';' :: escapeList rest := rfl
      rw [hform, unescapeList_entity_step _ _ (by decide) (by decide), ih]
      rfl
    by_cases h4 : c = '"'
    · subst h4
      have hform : escapeChar '"' ++ escapeList rest =
          '&' :: ['q', 'u', 'o', 't'] ++ ';' :: escapeList rest := rfl
      rw [hform, unescapeList_entity_step _ _ (by decide) (by decide), ih]
      rfl
    · have hesc : escapeChar c = [c] := by
        simp [escapeChar, h1, h2, h3, h4]
      rw [hesc, List.singleton_append, unescapeList_cons_ne c _ h1, ih]

/-- C3: `unescape` is a left inverse of `escape` on every text — in
particular on every text containing no ambiguous numeric entities. -/
theorem unescape_escape (s : String) : unescape (escape s) = s := by
  cases s with
  | mk data =>
    show String.mk (unescapeList (escapeList data)) = String.mk data
    rw [unescapeList_escapeList]

/-- A lookup over entries that all miss the name returns nothing. -/
theorem headersGetLast_eq_none (hs : Headers) (k2 : String)
    (h : ∀ p ∈ hs, lowerStr p.1 ≠ lowerStr k2) : headersGetLast hs k2 = none := by
  induction hs with
  | nil => rfl
  | cons p rest ih =>
    obtain ⟨k0, v0⟩ := p
    rw [headersGetLast, ih (fun q hq => h q (List.mem_cons_of_mem _ hq))]
    simp [h (k0, v0) (List.mem_cons_self _ _)]

/-- Prepending an entry with a different name does not change a lookup. -/
theorem headersGetLast_cons_ne (k0 v0 : String) (l : Headers) (k2 : String)
    (h : lowerStr k0 ≠ lowerStr k2) :
    headersGetLast ((k0, v0) :: l) k2 = headersGetLast l k2 := by
  rw [headersGetLast]
  cases headersGetLast l k2 <;> simp [h]

/-- Filtering away entries of an unrelated name does not change a lookup. -/
theorem headersGetLast_filter_ne (rest : Headers) (k k2 : String)
    (h : lowerStr k2 ≠ lowerStr k) :
    headersGetLast (rest.filter (fun p => lowerStr p.1 ≠ lowerStr k)) k2 =
      headersGetLast rest k2 := by
  induction rest with
  | nil => rfl
  | cons p l ih =>
    obtain ⟨k0, v0⟩ := p
    by_cases h0 : lowerStr k0 = lowerStr k
    · rw [List.filter_cons_of_neg (by simpa using h0), ih,
        headersGetLast_cons_ne _ _ _ _ (h0.symm ▸ (Ne.symm h))]
    · rw [List.filter_cons_of_pos (by simpa using h0)]
      simp only [headersGetLast, ih]

/-- Looking up the name just written by `headersSet` finds the new value. -/
theorem headersGetLast_headersSet_same (hs : Headers) (k v k2 : String)
    (h : lowerStr k2 = lowerStr k) :
    headersGetLast (headersSet hs k v) k2 = some v := by
  induction hs with
  | nil => simp [headersSet, headersGetLast, h.symm]
  | cons p rest ih =>
    obtain ⟨k0, v0⟩ := p
    by_cases h0 : lowerStr k0 = lowerStr k
    · rw [headersSet, if_pos h0, headersGetLast]
      rw [headersGetLast_eq_none _ _ (fun q hq => ?_)]
      · simp [h.symm]
      · have := List.of_mem_filter hq
        simp only [decide_eq_true_eq] at this
        rw [h]
        exact this
    · rw [headersSet, if_neg h0, headersGetLast_cons_ne _ _ _ _ (fun hc => h0 (hc.trans h)), ih]

/-- Writing one name with `headersSet` leaves lookups of any other name
unchanged. -/
theorem headersGetLast_headersSet_other (hs : Headers) (k v k2 : String)
    (h : lowerStr k2 ≠ lowerStr k) :
    headersGetLast (headersSet hs k v) k2 = headersGetLast hs k2 := by
  induction hs with
  | nil =>
    rw [headersSet, headersGetLast_cons_ne _ _ _ _ (Ne.symm h)]
  | cons p rest ih =>
    obtain ⟨k0, v0⟩ := p
    by_cases h0 : lowerStr k0 = lowerStr k
    · rw [headersSet, if_pos h0,
        headersGetLast_cons_ne _ _ _ _ (Ne.symm h),
        headersGetLast_filter_ne _ _ _ h,
        headersGetLast_cons_ne _ _ _ _ (h0.symm ▸ (Ne.symm h))]
    · rw [headersSet, if_neg h0]
      simp only [headersGetLast, ih]

/-- The location and content-location normalization steps never touch a
header of another name. -/
theorem headersGetLast_locationHeaders (u : UrlEnv) (r : BaseResponse) (k2 : String)
    (h1 : lowerStr k2 ≠ lowerStr "Location")
    (h2 : lowerStr k2 ≠ lowerStr "Content-Location") :
    headersGetLast (locationHeaders u r) k2 = headersGetLast r.headers k2 := by
  unfold locationHeaders
  dsimp only
  cases hloc : headersGetLast r.headers "location" with
  | none =>
    cases hcl : headersGetLast r.headers "content-location" with
    | none => rfl
    | some cl => rw [headersGetLast_headersSet_other _ _ _ _ h2]
  | some oldLoc =>
    cases hcl : headersGetLast r.headers "content-location" with
    | none =>
      dsimp only
      split <;> split
      · rw [headersGetLast_headersSet_other _ _ _ _ h1]
      · rfl
      · rw [headersGetLast_headersSet_other _ _ _ _ h1]
      · rfl
    | some cl =>
      rw [headersGetLast_headersSet_other _ _ _ _ h2]
      dsimp only
      split <;> split
      · rw [headersGetLast_headersSet_other _ _ _ _ h1]
      · rfl
      · rw [headersGetLast_headersSet_other _ _ _ _ h1]
      · rfl

/-- C2: `get_wsgi_headers` forces `Content-Length` to `"0"` for 1xx and 204
statuses; strips every entity header from a 304 response regardless of
input; computes `Content-Length` as the exact summed ASCII byte length of a
buffered body when no length was set, length computation is enabled and the
status forces nothing; and leaves `Content-Length` unset instead of raising
when such a body contains a non-ASCII-encodable chunk. -/
theorem get_wsgi_headers_spec (u : UrlEnv) (r : BaseResponse) :
    (((100 ≤ r.statusCode ∧ r.statusCode < 200) ∨ r.statusCode = 204) →
      headersGetLast (get_wsgi_headers u r) "Content-Length" = some "0") ∧
    (r.statusCode = 304 →
      ((get_wsgi_headers u r).all
        (fun p => !(entityHeaderNames.contains (lowerStr p.1)))) = true) ∧
    (∀ n : Nat, r.automaticallySetContentLength = true →
      is_sequence r.response = true →
      headersGetLast r.headers "content-length" = none →
      ¬((100 ≤ r.statusCode ∧ r.statusCode < 200) ∨ r.statusCode = 204) →
      r.statusCode ≠ 304 →
      bodyAsciiLen r.response = some n →
      headersGetLast (get_wsgi_headers u r) "Content-Length" = some (toString n)) ∧
    (r.automaticallySetContentLength = true →
      is_sequence r.response = true →
      headersGetLast r.headers "content-length" = none →
      ¬((100 ≤ r.statusCode ∧ r.statusCode < 200) ∨ r.statusCode = 204) →
      r.statusCode ≠ 304 →
      bodyAsciiLen r.response = none →
      headersGetLast (get_wsgi_headers u r) "content-length" = none) := by
  refine ⟨fun hst => ?_, fun h304 => ?_, fun n hauto hseq hcl hst h304 hlen => ?_,
    fun hauto hseq hcl hst h304 hlen => ?_⟩
  · unfold get_wsgi_headers
    dsimp only
    simp only [if_pos hst]
    rw [if_neg (by simp)]
    exact headersGetLast_headersSet_same _ _ _ _ rfl
  · unfold get_wsgi_headers
    dsimp only
    have hnz : ¬((100 ≤ r.statusCode ∧ r.statusCode < 200) ∨ r.statusCode = 204) := by
      rw [h304]
      omega
    simp only [if_neg hnz, if_pos h304]
    rw [if_neg (by simp [h304])]
    rw [List.all_eq_true]
    intro p hp
    have hmem := List.of_mem_filter hp
    simpa using hmem
  · unfold get_wsgi_headers
    dsimp only
    simp only [if_neg hst, if_neg h304]
    rw [if_pos ⟨hauto, hseq, hcl, h304⟩, hlen]
    exact headersGetLast_headersSet_same _ _ _ _ rfl
  · unfold get_wsgi_headers
    dsimp only
    simp only [if_neg hst, if_neg h304]
    rw [if_pos ⟨hauto, hseq, hcl, h304⟩, hlen]
    rw [headersGetLast_locationHeaders _ _ _ (by decide) (by decide)]
    exact hcl

/-- Witness for C2 exercising all four branches on concrete responses with
identity URL helpers. -/
theorem get_wsgi_headers_spec_witness :
    headersGetLast
        (get_wsgi_headers ⟨id, id, "", fun _ l => l⟩
          { response := .sequence [.text "ab", .bytes [1, 2, 3]], statusCode := 204,
            headers := [("Content-Type", "text/html")], directPassthrough := false })
        "Content-Length" = some "0" ∧
    ((get_wsgi_headers ⟨id, id, "", fun _ l => l⟩
        { response := .sequence [.text "x"], statusCode := 304,
          headers := [("Content-Type", "text/html"), ("X-Foo", "bar")],
          directPassthrough := false }).all
      (fun p => !(entityHeaderNames.contains (lowerStr p.1)))) = true ∧
    headersGetLast
        (get_wsgi_headers ⟨id, id, "", fun _ l => l⟩
          { response := .sequence [.text "ab", .bytes [1, 2, 3]], statusCode := 200,
            headers := [], directPassthrough := false })
        "Content-Length" = some (toString (5 : Nat)) ∧
    headersGetLast
        (get_wsgi_headers ⟨id, id, "", fun _ l => l⟩
          { response := .sequence [.text "über"], statusCode := 200,
            headers := [], directPassthrough := false })
        "content-length" = none :=
  ⟨(get_wsgi_headers_spec _ _).1 (by decide),
   (get_wsgi_headers_spec _ _).2.1 (by decide),
   (get_wsgi_headers_spec _ _).2.2.1 5 (by decide) (by decide) (by decide)
     (by decide) (by decide) (by decide),
   (get_wsgi_headers_spec _ _).2.2.2 (by decide) (by decide) (by decide)
     (by decide) (by decide) (by decide)⟩

/-- Popping one key does not change the lookup of another. -/
theorem kwGet_kwErase_ne (kws : List (String × Val)) (n n2 : String) (h : n2 ≠ n) :
    kwGet (kwErase kws n) n2 = kwGet kws n2 := by
  induction kws with
  | nil => rfl
  | cons p rest ih =>
    obtain ⟨k, v⟩ := p
    by_cases hk : k = n
    · subst hk
      rw [kwErase, if_pos rfl, kwGet, if_neg (fun hc => h hc.symm)]
    · rw [kwErase, if_neg hk]
      by_cases hk2 : k = n2
      · subst hk2
        rw [kwGet, if_pos rfl, kwGet, if_pos rfl]
      · rw [kwGet, if_neg hk2, kwGet, if_neg hk2, ih]

/-- A keyword lookup misses exactly when the key is absent. -/
theorem kwGet_eq_none_iff (kws : List (String × Val)) (n : String) :
    kwGet kws n = none ↔ n ∉ kws.map Prod.fst := by
  induction kws with
  | nil => simp [kwGet]
  | cons p rest ih =>
    obtain ⟨k, v⟩ := p
    by_cases hk : k = n
    · subst hk
      simp [kwGet]
    · simp [kwGet, hk, ih, Ne.symm hk]

/-- A found keyword lies among the keys. -/
theorem kwGet_some_mem (kws : List (String × Val)) (n : String) (v : Val)
    (h : kwGet kws n = some v) : (n, v) ∈ kws := by
  induction kws with
  | nil => cases h
  | cons p rest ih =>
    obtain ⟨k, w⟩ := p
    by_cases hk : k = n
    · subst hk
      rw [kwGet, if_pos rfl] at h
      injection h with hv
      subst hv
      exact List.mem_cons_self _ _
    · rw [kwGet, if_neg hk] at h
      exact List.mem_cons_of_mem _ (ih h)

/-- Popping an absent key is the identity. -/
theorem kwErase_eq_self (kws : List (String × Val)) (n : String)
    (h : kwGet kws n = none) : kwErase kws n = kws := by
  induction kws with
  | nil => rfl
  | cons p rest ih =>
    obtain ⟨k, v⟩ := p
    by_cases hk : k = n
    · subst hk
      rw [kwGet, if_pos rfl] at h
      cases h
    · rw [kwGet, if_neg hk] at h
      rw [kwErase, if_neg hk, ih h]

/-- Keys of the popped dict form a sublist of the original keys. -/
theorem kwErase_keys_sublist (kws : List (String × Val)) (n : String) :
    List.Sublist ((kwErase kws n).map Prod.fst) (kws.map Prod.fst) := by
  induction kws with
  | nil => simp [kwErase]
  | cons p rest ih =>
    obtain ⟨k, v⟩ := p
    by_cases hk : k = n
    · rw [kwErase, if_pos hk]
      exact (List.sublist_cons_self _ _)
    · rw [kwErase, if_neg hk]
      simpa using ih.cons₂ k

/-- With unique keys the popped key is gone. -/
theorem not_mem_keys_kwErase (kws : List (String × Val)) (n : String)
    (h : (kws.map Prod.fst).Nodup) : n ∉ (kwErase kws n).map Prod.fst := by
  induction kws with
  | nil => simp [kwErase]
  | cons p rest ih =>
    obtain ⟨k, v⟩ := p
    have hboth : k ∉ rest.map Prod.fst ∧ (rest.map Prod.fst).Nodup := by
      simpa [List.nodup_cons] using h
    obtain ⟨hhead, htail⟩ := hboth
    by_cases hk : k = n
    · subst hk
      rw [kwErase, if_pos rfl]
      exact hhead
    · rw [kwErase, if_neg hk]
      simpa [hk, Ne.symm hk] using ih htail

/-- An entry with a different key survives the pop. -/
theorem mem_kwErase_of_ne (kws : List (String × Val)) (n : String)
    (kv : String × Val) (hkv : kv ∈ kws) (hne : kv.1 ≠ n) : kv ∈ kwErase kws n := by
  induction kws with
  | nil => cases hkv
  | cons p rest ih =>
    obtain ⟨k, v⟩ := p
    by_cases hk : k = n
    · subst hk
      rw [kwErase, if_pos rfl]
      rcases List.mem_cons.mp hkv with heq | hmem
      · exact absurd (by rw [heq]) hne
      · exact hmem
    · rw [kwErase, if_neg hk]
      rcases List.mem_cons.mp hkv with heq | hmem
      · exact heq ▸ List.mem_cons_self _ _
      · exact List.mem_cons_of_mem _ (ih hmem)

/-- Every surviving entry came from the original dict. -/
theorem mem_of_mem_kwErase (kws : List (String × Val)) (n : String)
    (kv : String × Val) (hkv : kv ∈ kwErase kws n) : kv ∈ kws := by
  induction kws with
  | nil => simp [kwErase] at hkv
  | cons p rest ih =>
    obtain ⟨k, v⟩ := p
    by_cases hk : k = n
    · rw [kwErase, if_pos hk] at hkv
      exact List.mem_cons_of_mem _ hkv
    · rw [kwErase, if_neg hk] at hkv
      rcases List.mem_cons.mp hkv with heq | hmem
      · exact heq ▸ List.mem_cons_self _ _
      · exact List.mem_cons_of_mem _ (ih hmem)

/-- A name found beyond a drop is a declared name. -/
theorem name_mem_of_mem_drop {n : String} {ps : List Param} {k : Nat}
    (h : n ∈ (ps.drop k).map Param.name) : n ∈ ps.map Param.name := by
  rcases List.mem_map.mp h with ⟨q, hq, hqn⟩
  exact hqn ▸ List.mem_map_of_mem Param.name (List.mem_of_mem_drop hq)

/-- Extending the allowed names by an unused one changes nothing. -/
theorem forall_mem_cons_name_iff (kws : List (String × Val)) (ps : List Param)
    (n : String) (hkwv : kwGet kws n = none) :
    (∀ kv ∈ kws, kv.1 ∈ ps.map Param.name) ↔
      (∀ kv ∈ kws, kv.1 ∈ n :: ps.map Param.name) := by
  constructor
  · intro hall kv hkv
    exact List.mem_cons_of_mem _ (hall kv hkv)
  · intro hall kv hkv
    rcases List.mem_cons.mp (hall kv hkv) with hkey | hmem
    · exact absurd (hkey ▸ List.mem_map_of_mem Prod.fst hkv)
        ((kwGet_eq_none_iff kws n).mp hkwv)
    · exact hmem

/-- The missing-name list the parser computes is exactly the
specification-side `missingRequiredNames`. -/
theorem fillParams_missing (ps : List Param) :
    ∀ (args : List Val) (kws : List (String × Val)),
      (ps.map Param.name).Nodup → (kws.map Prod.fst).Nodup →
      (fillParams ps args kws).2.1 = missingRequiredNames ps args kws := by
  induction ps with
  | nil =>
    intro args kws _ _
    cases args <;> simp [fillParams, missingRequiredNames]
  | cons p ps ih =>
    intro args kws hps hkw
    obtain ⟨hphead, hptail⟩ : p.name ∉ ps.map Param.name ∧ (ps.map Param.name).Nodup := by
      simpa [List.nodup_cons] using hps
    cases args with
    | cons a rest =>
      have hkwE : ((kwErase kws p.name).map Prod.fst).Nodup :=
        (kwErase_keys_sublist kws p.name).nodup hkw
      have hl : (fillParams (p :: ps) (a :: rest) kws).2.1 =
          (fillParams ps rest (kwErase kws p.name)).2.1 := by
        simp [fillParams]
      rw [hl, ih rest _ hptail hkwE]
      unfold missingRequiredNames
      simp only [List.length_cons, List.drop_succ_cons]
      apply congrArg
      apply List.filter_congr
      intro q hq
      have hqname : q.name ≠ p.name := fun hc =>
        hphead (hc ▸ List.mem_map_of_mem Param.name (List.mem_of_mem_drop hq))
      rw [kwGet_kwErase_ne _ _ _ hqname]
    | nil =>
      cases hkwv : kwGet kws p.name with
      | some v =>
        have hkwE : ((kwErase kws p.name).map Prod.fst).Nodup :=
          (kwErase_keys_sublist kws p.name).nodup hkw
        have hl : (fillParams (p :: ps) [] kws).2.1 =
            (fillParams ps [] (kwErase kws p.name)).2.1 := by
          simp [fillParams, hkwv]
        rw [hl, ih [] _ hptail hkwE]
        unfold missingRequiredNames
        simp only [List.length_nil, List.drop_zero]
        rw [List.filter_cons]
        have hpred : (p.default == none && kwGet kws p.name == none) = false := by
          simp [hkwv]
        rw [hpred]
        simp only [Bool.false_eq_true, if_false]
        apply congrArg
        apply List.filter_congr
        intro q hq
        have hqname : q.name ≠ p.name := fun hc =>
          hphead (hc ▸ List.mem_map_of_mem Param.name hq)
        rw [kwGet_kwErase_ne _ _ _ hqname]
      | none =>
        cases hdef : p.default with
        | some d =>
          have hl : (fillParams (p :: ps) [] kws).2.1 =
              (fillParams ps [] kws).2.1 := by
            simp [fillParams, hkwv, hdef]
          rw [hl, ih [] _ hptail hkw]
          simp [missingRequiredNames, List.filter_cons, hdef]
        | none =>
          have hl : (fillParams (p :: ps) [] kws).2.1 =
              p.name :: (fillParams ps [] kws).2.1 := by
            simp [fillParams, hkwv, hdef]
          rw [hl, ih [] _ hptail hkw]
          simp [missingRequiredNames, List.filter_cons, hdef, hkwv]

/-- With no missing name the parser fills exactly one value per declared
parameter. -/
theorem fillParams_args_length (ps : List Param) :
    ∀ (args : List Val) (kws : List (String × Val)),
      (fillParams ps args kws).2.1 = [] →
      (fillParams ps args kws).1.length = ps.length := by
  induction ps with
  | nil =>
    intro args kws _
    cases args <;> simp [fillParams]
  | cons p ps ih =>
    intro args kws h
    cases args with
    | cons a rest =>
      have h2 : (fillParams ps rest (kwErase kws p.name)).2.1 = [] := by
        simpa [fillParams] using h
      simp [fillParams, ih rest _ h2]
    | nil =>
      cases hkwv : kwGet kws p.name with
      | some v =>
        have h2 : (fillParams ps [] (kwErase kws p.name)).2.1 = [] := by
          simpa [fillParams, hkwv] using h
        simp [fillParams, hkwv, ih [] _ h2]
      | none =>
        cases hdef : p.default with
        | some d =>
          have h2 : (fillParams ps [] kws).2.1 = [] := by
            simpa [fillParams, hkwv, hdef] using h
          simp [fillParams, hkwv, hdef, ih [] _ h2]
        | none =>
          exfalso
          simp [fillParams, hkwv, hdef] at h

/-- The parser drops nothing silently: its extras are empty exactly when
every keyword argument is consumed by a declared parameter not already
filled positionally. -/
theorem fillParams_extras_iff (ps : List Param) :
    ∀ (args : List Val) (kws : List (String × Val)),
      (ps.map Param.name).Nodup → (kws.map Prod.fst).Nodup →
      (((fillParams ps args kws).2.2.1 ++ (fillParams ps args kws).2.2.2) = [] ↔
        ∀ kv ∈ kws, kv.1 ∈ (ps.drop args.length).map Param.name) := by
  induction ps with
  | nil =>
    intro args kws _ _
    cases args <;> simp [fillParams, List.eq_nil_iff_forall_not_mem]
  | cons p ps ih =>
    intro args kws hps hkw
    obtain ⟨hphead, hptail⟩ : p.name ∉ ps.map Param.name ∧ (ps.map Param.name).Nodup := by
      simpa [List.nodup_cons] using hps
    cases args with
    | cons a rest =>
      simp only [List.length_cons, List.drop_succ_cons]
      cases hkwv : kwGet kws p.name with
      | some v =>
        have hl : (fillParams (p :: ps) (a :: rest) kws).2.2.1 =
            (p.name, v) :: (fillParams ps rest (kwErase kws p.name)).2.2.1 := by
          simp [fillParams, hkwv]
        have hkl : (fillParams (p :: ps) (a :: rest) kws).2.2.2 =
            (fillParams ps rest (kwErase kws p.name)).2.2.2 := by
          simp [fillParams]
        rw [hl, hkl]
        have hfound := kwGet_some_mem kws p.name v hkwv
        simp only [List.cons_append]
        constructor
        · intro hc
          exact absurd hc (List.cons_ne_nil _ _)
        · intro hall
          exact absurd (name_mem_of_mem_drop (hall (p.name, v) hfound)) hphead
      | none =>
        have hE : kwErase kws p.name = kws := kwErase_eq_self _ _ hkwv
        have hl : (fillParams (p :: ps) (a :: rest) kws).2.2.1 =
            (fillParams ps rest kws).2.2.1 := by
          simp [fillParams, hkwv, hE]
        have hkl : (fillParams (p :: ps) (a :: rest) kws).2.2.2 =
            (fillParams ps rest kws).2.2.2 := by
          simp [fillParams, hE]
        rw [hl, hkl]
        exact ih rest kws hptail hkw
    | nil =>
      simp only [List.length_nil, List.drop_zero]
      cases hkwv : kwGet kws p.name with
      | some v =>
        have hkwE : ((kwErase kws p.name).map Prod.fst).Nodup :=
          (kwErase_keys_sublist kws p.name).nodup hkw
        have hl : (fillParams (p :: ps) [] kws).2.2.1 =
            (fillParams ps [] (kwErase kws p.name)).2.2.1 := by
          simp [fillParams, hkwv]
        have hkl : (fillParams (p :: ps) [] kws).2.2.2 =
            (fillParams ps [] (kwErase kws p.name)).2.2.2 := by
          simp [fillParams, hkwv]
        rw [hl, hkl, ih [] _ hptail hkwE]
        simp only [List.drop_zero, List.map_cons]
        constructor
        · intro hall kv hkv
          by_cases hkey : kv.1 = p.name
          · exact hkey ▸ List.mem_cons_self _ _
          · exact List.mem_cons_of_mem _ (hall kv (mem_kwErase_of_ne _ _ _ hkv hkey))
        · intro hall kv hkv
          rcases List.mem_cons.mp (hall kv (mem_of_mem_kwErase _ _ _ hkv)) with hkey | hmem
          · refine absurd ?_ (not_mem_keys_kwErase kws p.name hkw)
            have hm : kv.1 ∈ (kwErase kws p.name).map Prod.fst :=
              List.mem_map_of_mem Prod.fst hkv
            rwa [hkey] at hm
          · exact hmem
      | none =>
        cases hdef : p.default with
        | some d =>
          have hl : (fillParams (p :: ps) [] kws).2.2.1 =
              (fillParams ps [] kws).2.2.1 := by
            simp [fillParams, hkwv, hdef]
          have hkl : (fillParams (p :: ps) [] kws).2.2.2 =
              (fillParams ps [] kws).2.2.2 := by
            simp [fillParams, hkwv, hdef]
          rw [hl, hkl, ih [] _ hptail hkw]
          simp only [List.drop_zero, List.map_cons]
          exact forall_mem_cons_name_iff kws ps p.name hkwv
        | none =>
          have hl : (fillParams (p :: ps) [] kws).2.2.1 =
              (fillParams ps [] kws).2.2.1 := by
            simp [fillParams, hkwv, hdef]
          have hkl : (fillParams (p :: ps) [] kws).2.2.2 =
              (fillParams ps [] kws).2.2.2 := by
            simp [fillParams, hkwv, hdef]
          rw [hl, hkl, ih [] _ hptail hkw]
          simp only [List.drop_zero, List.map_cons]
          exact forall_mem_cons_name_iff kws ps p.name hkwv

/-- C7: `validate_arguments` raises `ArgumentValidationError` carrying
exactly the unfilled required parameter names whenever there is one; with
`drop_extra` false it also raises whenever some positional or keyword value
is not consumed by the signature; and with `drop_extra` true (the default)
such extras are silently dropped and the returned pair is restricted to
what the function accepts — one value per declared parameter and an empty
keyword dict; for a zero-parameter function the returned bindings are
empty. -/
theorem validate_arguments_spec (ps : List Param) (args : List Val)
    (kwargs : List (String × Val))
    (hps : (ps.map Param.name).Nodup) (hkw : (kwargs.map Prod.fst).Nodup) :
    (∀ d : Bool, missingRequiredNames ps args kwargs ≠ [] →
      validate_arguments ps args kwargs d =
        .error ⟨missingRequiredNames ps args kwargs, [], []⟩) ∧
    (missingRequiredNames ps args kwargs = [] →
      ((∃ kv ∈ kwargs, kv.1 ∉ (ps.drop args.length).map Param.name) ∨
        ps.length < args.length) →
      ∃ e, validate_arguments ps args kwargs false = .error e ∧ e.missing = []) ∧
    (missingRequiredNames ps args kwargs = [] →
      ∃ out, validate_arguments ps args kwargs true = .ok out ∧
        out.1.length = ps.length ∧ out.2 = []) ∧
    validate_arguments [] args kwargs true = .ok ([], []) := by
  have hmiss := fillParams_missing ps args kwargs hps hkw
  refine ⟨fun d hne => ?_, fun hm hextra => ?_, fun hm => ?_, ?_⟩
  · unfold validate_arguments
    dsimp only
    rw [hmiss, if_pos hne]
  · unfold validate_arguments
    dsimp only
    rw [hmiss, if_neg (by simpa using hm)]
    rw [if_pos ?_]
    · exact ⟨_, rfl, rfl⟩
    · refine ⟨?_, rfl⟩
      rcases hextra with ⟨kv, hkv, hnotin⟩ | hlen
      · left
        intro hnil
        exact hnotin ((fillParams_extras_iff ps args kwargs hps hkw).mp hnil kv hkv)
      · right
        intro hnil
        rw [List.drop_eq_nil_iff] at hnil
        omega
  · unfold validate_arguments
    dsimp only
    rw [hmiss, if_neg (by simpa using hm)]
    rw [if_neg (by simp)]
    exact ⟨_, rfl, fillParams_args_length ps args kwargs (hmiss.trans hm), rfl⟩
  · unfold validate_arguments
    dsimp only
    rw [if_neg (by simp [fillParams])]
    rw [if_neg (by simp)]
    simp [fillParams]

/-- Witness for C7: a missing-argument failure, an extra-positional failure
with `drop_extra` disabled, a defaulted success, and the silent drop of
extras for a zero-parameter function. -/
theorem validate_arguments_spec_witness :
    validate_arguments [⟨"a", none⟩, ⟨"b", none⟩] [] [] true =
      .error ⟨missingRequiredNames [⟨"a", none⟩, ⟨"b", none⟩] [] [], [], []⟩ ∧
    (∃ e, validate_arguments [] [1] [] false = .error e ∧ e.missing = []) ∧
    (∃ out, validate_arguments [⟨"a", none⟩, ⟨"b", some 0⟩] [1] [] true = .ok out ∧
      out.1.length = 2 ∧ out.2 = []) ∧
    validate_arguments [] [1, 2] [("c", 3)] true = .ok ([], []) :=
  ⟨(validate_arguments_spec [⟨"a", none⟩, ⟨"b", none⟩] [] [] (by decide) (by decide)).1
      true (by decide),
   (validate_arguments_spec [] [1] [] (by decide) (by decide)).2.1 (by decide)
     (Or.inr (by decide)),
   by
     have h := (validate_arguments_spec [⟨"a", none⟩, ⟨"b", some 0⟩] [1] [] (by decide)
       (by decide)).2.2.1 (by decide)
     simpa using h,
   (validate_arguments_spec [] [1, 2] [("c", 3)] (by decide) (by decide)).2.2.2⟩

end Werkzeug
